import Mathlib

/-!
Verification of the BLAKE2s streaming-hash engine (Go package `blake2s`).

The Go package is a thin wrapper that keeps a parameter block, a C hash
state, a stored key and a last-node flag, and delegates the cryptographic
work to the C functions `blake2s_init_param`, `blake2s_init_key`,
`blake2s_update` and `blake2s_final`.  The Go wrapper itself is embedded
from the source; the C functions are not part of the source tree, so they
are modelled from the specification (marked `Modelled from the spec:` in
their doc comments).

Machine integers are modelled as `Nat` with explicit reduction modulo
`2 ^ 32` where 32-bit overflow matters; byte strings are `List Nat`.
-/

namespace Blake2s

/-- Bytes are natural numbers; operations keep them below 256. -/
abbrev Byte := Nat

/-- Addition of 32-bit words, reduced modulo `2 ^ 32`. -/
def add32 (a b : Nat) : Nat := (a + b) % 4294967296

/-- Right rotation of a 32-bit word by `n` bits (for `x < 2 ^ 32`). -/
def rotr32 (x n : Nat) : Nat := x / 2 ^ n + x % 2 ^ n * 2 ^ (32 - n)

/-- Little-endian 32-bit word read from byte position `i` of a byte list. -/
def leWordAt (b : List Byte) (i : Nat) : Nat :=
  b.getD i 0 + 256 * b.getD (i + 1) 0 + 65536 * b.getD (i + 2) 0 +
    16777216 * b.getD (i + 3) 0

/-- Little-endian serialization of a list of 32-bit words. -/
def bytesOfWords (ws : List Nat) : List Byte :=
  (ws.map (fun w => [w % 256, w / 256 % 256, w / 65536 % 256, w / 16777216 % 256])).flatten

/-- Modelled from the spec: the BLAKE2s initialization vector (the eight
32-bit round constants the chaining value starts from); the constant table
lives in the C sources, which are not part of the Go tree. -/
def IV : List Nat :=
  [1779033703, 3144134277, 1013904242, 2773480762,
   1359893119, 2600822924, 528734635, 1541459225]

/-- Modelled from the spec: the fixed 10 × 16 message-word permutation
table (`sigma`) of the BLAKE2s compression function; the table lives in
the C sources, which are not part of the Go tree. -/
def sigmaTable : List (List Nat) :=
  [[0, 1, 2, 3, 4, 5, 6, 7, 8, 9, 10, 11, 12, 13, 14, 15],
   [14, 10, 4, 8, 9, 15, 13, 6, 1, 12, 0, 2, 11, 7, 5, 3],
   [11, 8, 12, 0, 5, 2, 15, 13, 10, 14, 3, 6, 7, 1, 9, 4],
   [7, 9, 3, 1, 13, 12, 11, 14, 2, 6, 5, 10, 4, 0, 15, 8],
   [9, 0, 5, 7, 2, 4, 10, 15, 14, 1, 11, 12, 6, 8, 3, 13],
   [2, 12, 6, 10, 0, 11, 8, 3, 4, 13, 7, 5, 15, 14, 1, 9],
   [12, 5, 1, 15, 14, 13, 4, 10, 0, 7, 6, 3, 9, 2, 8, 11],
   [13, 11, 7, 14, 12, 1, 3, 9, 5, 0, 15, 4, 8, 6, 2, 10],
   [6, 15, 14, 9, 11, 3, 0, 8, 12, 2, 13, 7, 1, 4, 10, 5],
   [10, 2, 8, 4, 7, 6, 1, 5, 15, 11, 9, 14, 3, 12, 13, 0]]

/-- The G mixing step of the BLAKE2s compression function: two 32-bit
additions, three XORs and rotations by 16/12/8/7 bits applied to the
working-vector quadruple at positions `a b c d` with message words `x y`. -/
def gMix (v : List Nat) (a b c d : Nat) (x y : Nat) : List Nat :=
  let va1 := add32 (add32 (v.getD a 0) (v.getD b 0)) x
  let vd1 := rotr32 ((v.getD d 0) ^^^ va1) 16
  let vc1 := add32 (v.getD c 0) vd1
  let vb1 := rotr32 ((v.getD b 0) ^^^ vc1) 12
  let va2 := add32 (add32 va1 vb1) y
  let vd2 := rotr32 (vd1 ^^^ va2) 8
  let vc2 := add32 vc1 vd2
  let vb2 := rotr32 (vb1 ^^^ vc2) 7
  (((v.set a va2).set b vb2).set c vc2).set d vd2

/-- One round of the BLAKE2s mixing permutation: the G step applied to the
four column quadruples and then the four diagonal quadruples, message
words drawn through the round's sigma row `s`. -/
def blake2sRound (s : List Nat) (m : List Nat) (v : List Nat) : List Nat :=
  let mw := fun i => m.getD (s.getD i 0) 0
  let v := gMix v 0 4 8 12 (mw 0) (mw 1)
  let v := gMix v 1 5 9 13 (mw 2) (mw 3)
  let v := gMix v 2 6 10 14 (mw 4) (mw 5)
  let v := gMix v 3 7 11 15 (mw 6) (mw 7)
  let v := gMix v 0 5 10 15 (mw 8) (mw 9)
  let v := gMix v 1 6 11 12 (mw 10) (mw 11)
  let v := gMix v 2 7 8 13 (mw 12) (mw 13)
  gMix v 3 4 9 14 (mw 14) (mw 15)

/-- Modelled from the spec: the C compression function `blake2s_compress`
(§4.2), absent from the Go tree.  Maps a chaining value `h`, the running
byte counter `t` (its two little-endian 32-bit halves are XORed into
working-vector positions 12 and 13), the finalization masks `f0`/`f1`
(XORed into positions 14 and 15) and one 64-byte block to a new chaining
value `h[i] XOR v[i] XOR v[i+8]` after 10 rounds. -/
def blake2s_compress (h : List Nat) (t : Nat) (f0 f1 : Nat) (block : List Byte) : List Nat :=
  let m := (List.range 16).map (fun i => leWordAt block (4 * i))
  let v := h ++ IV
  let v := v.set 12 ((v.getD 12 0) ^^^ t % 4294967296)
  let v := v.set 13 ((v.getD 13 0) ^^^ t / 4294967296 % 4294967296)
  let v := v.set 14 ((v.getD 14 0) ^^^ f0)
  let v := v.set 15 ((v.getD 15 0) ^^^ f1)
  let v := (List.range 10).foldl (fun v r => blake2sRound (sigmaTable.getD r []) m v) v
  (List.range 8).map (fun i => (h.getD i 0) ^^^ (v.getD i 0) ^^^ (v.getD (i + 8) 0))

/-- The C parameter block `blake2s_param` as filled in by the Go wrapper:
digest length, key length, fanout, depth, leaf length, node offset, node
depth, inner hash length, and the fixed 8-byte salt and personalization
fields. -/
structure blake2s_param where
  digest_length : Nat
  key_length : Nat
  fanout : Nat
  depth : Nat
  leaf_length : Nat
  node_offset : Nat
  node_depth : Nat
  inner_length : Nat
  salt : List Byte
  personal : List Byte
deriving DecidableEq

/-- Little-endian 4-byte serialization of a 32-bit value. -/
def le4 (x : Nat) : List Byte :=
  [x % 256, x / 256 % 256, x / 65536 % 256, x / 16777216 % 256]

/-- Modelled from the spec: the 32-byte serialization of the parameter
block (§3 field order: digest_length, key_length, fanout, depth,
leaf_length, node_offset, node_depth, inner_length, two reserved zero
bytes to pad the block to 32 bytes, then the 8-byte salt and 8-byte
personalization); the C struct layout is not part of the Go tree. -/
def serializeParam (p : blake2s_param) : List Byte :=
  [p.digest_length % 256, p.key_length % 256, p.fanout % 256, p.depth % 256] ++
    le4 p.leaf_length ++ le4 p.node_offset ++
    [p.node_depth % 256, p.inner_length % 256, 0, 0] ++
    p.salt ++ p.personal

/-- The C hash state `blake2s_state`: chaining value `h`, total byte
counter `t` (the C state's two 32-bit counter words, kept here as one
natural number), the pending-block buffer and the last-node flag. -/
structure blake2s_state where
  h : List Nat
  t : Nat
  buf : List Byte
  last_node : Bool
deriving DecidableEq

/-- Modelled from the spec: the C function `blake2s_init_param`, absent
from the Go tree.  Per §7 it refuses configurations whose digest length
falls outside [1,32], whose key length exceeds 32 or whose inner hash
length exceeds 32 (returning failure, which the Go wrapper turns into a
construction-time panic); otherwise it derives the initial chaining value
by XORing the IV with the eight little-endian words of the serialized
parameter block, with zero counters and an empty buffer. -/
def blake2s_init_param (p : blake2s_param) : Option blake2s_state :=
  if 1 ≤ p.digest_length ∧ p.digest_length ≤ 32 ∧ p.key_length ≤ 32 ∧ p.inner_length ≤ 32 then
    some { h := (List.range 8).map (fun i => (IV.getD i 0) ^^^ leWordAt (serializeParam p) (4 * i)),
           t := 0, buf := [], last_node := false }
  else none

/-- Modelled from the spec: the block-flushing loop of the C function
`blake2s_update` (§4.3), absent from the Go tree.  While more than one
full 64-byte block is pending, the leading block is compressed (counter
first incremented by 64) and removed; the trailing partial block — or a
final full block — is always retained in the buffer until finalization. -/
def updateLoop (h : List Nat) (t : Nat) (pending : List Byte) : List Nat × Nat × List Byte :=
  if 64 < pending.length then
    updateLoop (blake2s_compress h (t + 64) 0 0 (pending.take 64)) (t + 64) (pending.drop 64)
  else (h, t, pending)
termination_by pending.length
decreasing_by simpa [List.length_drop] using by omega

/-- Modelled from the spec: the C function `blake2s_update` (§4.3), absent
from the Go tree.  It appends the input to the pending buffer and flushes
complete leading blocks through the compression function, retaining the
trailing (partial or exactly full) block. -/
def blake2s_update (s : blake2s_state) (input : List Byte) : blake2s_state :=
  let r := updateLoop s.h s.t (s.buf ++ input)
  { s with h := r.1, t := r.2.1, buf := r.2.2 }

/-- Modelled from the spec: the C function `blake2s_final` (§4.3), absent
from the Go tree.  It pads the retained buffer with zeros to 64 bytes,
increments the counter by the actual retained byte count, compresses with
the all-ones finalization mask (and the last-node mask when the last-node
flag is set), serializes the chaining value little-endian and truncates to
`outlen` bytes.  It acts on the state it is given and returns only bytes. -/
def blake2s_final (s : blake2s_state) (outlen : Nat) : List Byte :=
  let block := s.buf ++ List.replicate (64 - s.buf.length) 0
  let f1 := if s.last_node then 4294967295 else 0
  let h := blake2s_compress s.h (s.t + s.buf.length) 4294967295 f1 block
  (bytesOfWords h).take outlen

/-- Modelled from the spec: the C function `blake2s_init_key`, absent from
the Go tree.  It refuses an empty key or a key longer than 32 bytes;
otherwise it initializes the state from a keyed parameter block
(digest length `outlen`, key length `key.length`, fanout 1, depth 1) and
feeds the key, zero-padded to a full 64-byte block, as the first block of
message data (§3). -/
def blake2s_init_key (outlen : Nat) (key : List Byte) : Option blake2s_state :=
  if key.length = 0 ∨ 32 < key.length then none
  else
    match blake2s_init_param
        { digest_length := outlen, key_length := key.length, fanout := 1, depth := 1,
          leaf_length := 0, node_offset := 0, node_depth := 0, inner_length := 0,
          salt := List.replicate 8 0, personal := List.replicate 8 0 } with
    | none => none
    | some s => some (blake2s_update s (key ++ List.replicate (64 - key.length) 0))

/-- Tree-hashing parameters of the Go `Tree` struct. -/
structure Tree where
  Fanout : Nat
  MaxDepth : Nat
  LeafSize : Nat
  NodeDepth : Nat
  NodeOffset : Nat
  InnerHashSize : Nat
  IsLastNode : Bool
deriving DecidableEq

/-- The Go `Config` struct: digest size, optional key, salt,
personalization and optional tree parameters. -/
structure Config where
  Size : Nat
  Key : List Byte
  Salt : List Byte
  Personal : List Byte
  Tree : Option Tree
deriving DecidableEq

/-- The Go `digest` struct: block size, C hash state, stored key,
parameter block and the last-node flag. -/
structure digest where
  blockSize : Nat
  state : blake2s_state
  key : List Byte
  param : blake2s_param
  isLastNode : Bool
deriving DecidableEq

/-- The Go method `(*digest).BlockSize`. -/
def digest.BlockSize (d : digest) : Nat := d.blockSize

/-- The Go method `(*digest).Size`: the parameter block's digest length. -/
def digest.Size (d : digest) : Nat := d.param.digest_length

/-- The Go method `(*digest).Reset`: re-initializes the state from the
parameter block via `blake2s_init_param` and re-applies the last-node
flag.  A failing C initialization makes the Go code panic, modelled as
`none`. -/
def digest.Reset (d : digest) : Option digest :=
  match blake2s_init_param d.param with
  | none => none
  | some s =>
      some { d with state := if d.isLastNode then { s with last_node := true } else s }

/-- The Go method `(*digest).Write`: feeds non-empty input to
`blake2s_update` and always returns the pair `(len(buf), nil)`. -/
def digest.Write (d : digest) (buf : List Byte) : (Nat × Option String) × digest :=
  ((buf.length, none),
   if 0 < buf.length then { d with state := blake2s_update d.state buf } else d)

/-- The Go method `(*digest).Sum`: finalizes a copy of the state (`s :=
d.state`) to a digest of `d.Size()` bytes and returns it appended to the
caller's prefix; the engine itself is returned unchanged, exactly as the
Go method leaves the receiver untouched. -/
def digest.Sum (d : digest) (buf : List Byte) : List Byte × digest :=
  let s := d.state
  let dig := blake2s_final s (d.Size)
  (buf ++ dig, d)

/-- The empty-value C state embedded in a freshly allocated Go `digest`
struct (overwritten by `Reset` before use). -/
def zeroState : blake2s_state :=
  { h := List.replicate 8 0, t := 0, buf := [], last_node := false }

/-- The digest value the Go `New` builds before reading the config: block
size 64 and a parameter block with digest length 32, fanout 1, depth 1. -/
def baseDigest : digest :=
  { blockSize := 64, state := zeroState, key := [],
    param := { digest_length := 32, key_length := 0, fanout := 1, depth := 1,
               leaf_length := 0, node_offset := 0, node_depth := 0, inner_length := 0,
               salt := List.replicate 8 0, personal := List.replicate 8 0 },
    isLastNode := false }

/-- The Go key branch of `New`: for a non-empty key, lengths above 255
panic (`blake2s key too long`, modelled as `none`); otherwise the key
length is recorded in the parameter block and the key stored. -/
def setKey (d : digest) (key : List Byte) : Option digest :=
  if 0 < key.length then
    if 255 < key.length then none
    else some { d with param := { d.param with key_length := key.length }, key := key }
  else some d

/-- The Go fixed-field copy `copy(dst[:], src)` into an `n`-byte zeroed
array: the first `n` source bytes, zero-padded to length `n`. -/
def copyFixed (n : Nat) (src : List Byte) : List Byte :=
  src.take n ++ List.replicate (n - src.length) 0

/-- The Go tree branch of `New`: folds the `Tree` fields into the
parameter block and records the last-node flag. -/
def setTree (d : digest) (t : Option Tree) : digest :=
  match t with
  | none => d
  | some t =>
      { d with
        param := { d.param with
                   fanout := t.Fanout, depth := t.MaxDepth,
                   leaf_length := t.LeafSize, node_offset := t.NodeOffset,
                   node_depth := t.NodeDepth, inner_length := t.InnerHashSize },
        isLastNode := t.IsLastNode }

/-- The body of the Go `New` on a non-nil config, up to the final
`d.Reset()` call: size override, key branch, truncating salt and
personalization copies, tree branch. -/
def digestOf (cfg : Config) : Option digest :=
  let d := if cfg.Size ≠ 0 then
      { baseDigest with param := { baseDigest.param with digest_length := cfg.Size } }
    else baseDigest
  match setKey d cfg.Key with
  | none => none
  | some d =>
      let d := { d with
                 param := { d.param with
                            salt := copyFixed 8 cfg.Salt,
                            personal := copyFixed 8 cfg.Personal } }
      some (setTree d cfg.Tree)

/-- The Go function `New`: builds the digest from the defaults and the
optional config (size, key, truncating salt/personalization copies, tree
parameters) and finishes with `d.Reset()`; a panic anywhere is `none`. -/
def New (config : Option Config) : Option digest :=
  match config with
  | none => baseDigest.Reset
  | some cfg =>
      match digestOf cfg with
      | none => none
      | some d => d.Reset

/-- The Go function `New256`: builds `New(nil)` and re-initializes its
state through `blake2s_init_key` with digest length 32.  Taking the
address of `key[0]` panics on an empty slice, and a failing
`blake2s_init_key` panics (`blake2s: unable to init key`); both are
modelled as `none`. -/
def New256 (key : List Byte) : Option digest :=
  match New none with
  | none => none
  | some d =>
      if key.length = 0 then none
      else
        match blake2s_init_key 32 key with
        | none => none
        | some s => some { d with state := s }

/-- The engine after a sequence of `Write` calls (each call's returned
engine feeding the next). -/
def writeAll (d : digest) (cs : List (List Byte)) : digest :=
  cs.foldl (fun d c => (d.Write c).2) d

/-- The effective digest length a config selects: its `Size` field, with
0 selecting the default of 32. -/
def effSize (cfg : Config) : Nat := if cfg.Size = 0 then 32 else cfg.Size

/-- The inner hash length a config puts into the parameter block: the
tree field when tree mode is configured, 0 otherwise. -/
def effInner (cfg : Config) : Nat :=
  match cfg.Tree with
  | none => 0
  | some t => t.InnerHashSize

/-- Config with a 9-byte salt and a 9-byte personalization, both longer
than the 8-byte parameter-block fields. -/
def oversizedSaltConfig : Config :=
  { Size := 0, Key := [], Salt := List.replicate 9 1,
    Personal := List.replicate 9 2, Tree := none }

/-- Config exercising every field: digest size, key, salt,
personalization and tree parameters including the last-node flag. -/
def fullConfig : Config :=
  { Size := 1, Key := [0], Salt := [1], Personal := [2],
    Tree := some { Fanout := 2, MaxDepth := 3, LeafSize := 4096, NodeDepth := 1,
                   NodeOffset := 5, InnerHashSize := 32, IsLastNode := true } }

/-- Flushing the pending bytes of `x ++ y` is the same as flushing `x`
first and then flushing the retained remainder with `y` appended: the
block boundaries cut by the update loop do not depend on how the input
was split. -/
theorem updateLoop_append (x y : List Byte) (hh : List Nat) (t : Nat) :
    updateLoop hh t (x ++ y) =
      updateLoop (updateLoop hh t x).1 (updateLoop hh t x).2.1
        ((updateLoop hh t x).2.2 ++ y) := by
  by_cases hx : 64 < x.length
  · have hle : 64 ≤ x.length := le_of_lt hx
    have hxy : 64 < (x ++ y).length := by
      rw [List.length_append]; omega
    have hstep : updateLoop hh t x
        = updateLoop (blake2s_compress hh (t + 64) 0 0 (x.take 64)) (t + 64) (x.drop 64) := by
      rw [updateLoop, if_pos hx]
    rw [updateLoop, if_pos hxy, List.take_append_of_le_length hle,
      List.drop_append_of_le_length hle, hstep,
      updateLoop_append (x.drop 64) y (blake2s_compress hh (t + 64) 0 0 (x.take 64)) (t + 64)]
  · have hstop : updateLoop hh t x = (hh, t, x) := by
      rw [updateLoop, if_neg hx]
    rw [hstop]
termination_by x.length
decreasing_by simp [List.length_drop]; omega

/-- The C update function absorbs concatenated input the same way it
absorbs the pieces one after the other. -/
theorem blake2s_update_append (s : blake2s_state) (a b : List Byte) :
    blake2s_update (blake2s_update s a) b = blake2s_update s (a ++ b) := by
  unfold blake2s_update
  rw [← List.append_assoc, updateLoop_append (s.buf ++ a) b s.h s.t]

/-- Two consecutive `Write` calls leave the engine exactly as one `Write`
of the concatenation does. -/
theorem Write_Write (d : digest) (a b : List Byte) :
    (((d.Write a).2).Write b).2 = (d.Write (a ++ b)).2 := by
  by_cases ha : 0 < a.length
  · by_cases hb : 0 < b.length
    · have hab : 0 < (a ++ b).length := by rw [List.length_append]; omega
      simp only [digest.Write, if_pos ha, if_pos hb, if_pos hab]
      rw [blake2s_update_append]
    · have hb0 : b = [] := by
        cases b with
        | nil => rfl
        | cons c cs => simp at hb
      subst hb0
      simp only [digest.Write, List.length_nil, Nat.lt_irrefl, if_neg, List.append_nil]
      simp
  · have ha0 : a = [] := by
      cases a with
      | nil => rfl
      | cons c cs => simp at ha
    subst ha0
    simp [digest.Write]

/-- A sequence of `Write` calls is one `Write` of the flattened chunks. -/
theorem writeAll_eq_write_flatten (d : digest) (cs : List (List Byte)) :
    writeAll d cs = (d.Write cs.flatten).2 := by
  induction cs generalizing d with
  | nil => simp [writeAll, digest.Write]
  | cons c cs ih =>
      show writeAll ((d.Write c).2) cs = _
      rw [ih, Write_Write, List.flatten_cons]

/-- The C initialization succeeds exactly for digest lengths in [1,32],
key lengths at most 32 and inner hash lengths at most 32. -/
theorem init_param_isSome (p : blake2s_param) :
    (blake2s_init_param p).isSome = true ↔
      (1 ≤ p.digest_length ∧ p.digest_length ≤ 32 ∧
        p.key_length ≤ 32 ∧ p.inner_length ≤ 32) := by
  unfold blake2s_init_param
  split <;> simp_all

/-- `Reset` succeeds exactly when the parameter block passes the C
initialization's validation. -/
theorem Reset_isSome (d : digest) :
    (d.Reset).isSome = true ↔
      (1 ≤ d.param.digest_length ∧ d.param.digest_length ≤ 32 ∧
        d.param.key_length ≤ 32 ∧ d.param.inner_length ≤ 32) := by
  rw [← init_param_isSome d.param]
  unfold digest.Reset
  cases h : blake2s_init_param d.param <;> simp [h]

/-- `Reset` reads only the parameter block and the last-node flag, never
the current state. -/
theorem Reset_state_indep (d : digest) (s : blake2s_state) :
    ({ d with state := s } : digest).Reset = d.Reset := rfl

/-- A `Write` never changes what `Reset` produces. -/
theorem Reset_Write (d : digest) (a : List Byte) :
    ((d.Write a).2).Reset = d.Reset := by
  simp only [digest.Write]
  split
  · exact Reset_state_indep d _
  · rfl

/-- A successful `Reset` leaves the parameter block, block size, stored
key and last-node flag untouched. -/
theorem Reset_frame {d d' : digest} (h : d.Reset = some d') :
    d'.param = d.param ∧ d'.blockSize = d.blockSize ∧
      d'.isLastNode = d.isLastNode ∧ d'.key = d.key := by
  obtain ⟨bs, st, k, pr, ln⟩ := d
  unfold digest.Reset at h
  cases hi : blake2s_init_param pr with
  | none => simp [hi] at h
  | some s =>
      simp only [hi] at h
      injection h with h
      subst h
      simp

/-- A digest produced by a successful `Reset` resets to itself. -/
theorem Reset_Reset {d d' : digest} (h : d.Reset = some d') : d'.Reset = some d' := by
  obtain ⟨bs, st, k, pr, ln⟩ := d
  unfold digest.Reset at h ⊢
  cases hi : blake2s_init_param pr with
  | none => simp [hi] at h
  | some s =>
      simp only [hi] at h
      injection h with h
      subst h
      simp [hi]

/-- Every engine `New` hands out resets to itself: the construction ends
in the very `Reset` that seeded its state. -/
theorem New_Reset {cfg : Option Config} {d : digest} (h : New cfg = some d) :
    d.Reset = some d := by
  cases cfg with
  | none => exact Reset_Reset (show baseDigest.Reset = some d from h)
  | some c =>
      simp only [New] at h
      cases hd : digestOf c with
      | none => rw [hd] at h; exact absurd h (by simp)
      | some d0 => rw [hd] at h; exact Reset_Reset h

/-- The pre-`Reset` construction fails exactly on the Go panic for keys
longer than 255 bytes. -/
theorem digestOf_eq_none (cfg : Config) :
    digestOf cfg = none ↔ 255 < cfg.Key.length := by
  obtain ⟨sz, key, salt, pers, tr⟩ := cfg
  simp only [digestOf, setKey, setTree, baseDigest]
  split_ifs with h1 h2 <;> cases tr <;> simp_all

/-- Field values of the digest the pre-`Reset` construction produces:
block size 64, the effective digest length, the key length, the inner
hash length and the truncating salt and personalization copies. -/
theorem digestOf_some {cfg : Config} {d0 : digest} (h : digestOf cfg = some d0) :
    d0.blockSize = 64 ∧
    d0.param.digest_length = effSize cfg ∧
    d0.param.key_length = cfg.Key.length ∧
    d0.param.inner_length = effInner cfg ∧
    d0.param.salt = copyFixed 8 cfg.Salt ∧
    d0.param.personal = copyFixed 8 cfg.Personal := by
  obtain ⟨sz, key, salt, pers, tr⟩ := cfg
  simp only [digestOf, setKey, setTree, baseDigest] at h
  split_ifs at h with h1 h2 <;> cases tr <;> simp_all [effSize, effInner] <;>
    subst h <;> simp_all

/-- `New` succeeds on a non-nil config exactly when the key fits in 32
bytes, the effective digest length lies in [1,32] and the inner hash
length fits in 32 bytes — independently of salt and personalization. -/
theorem New_some_isSome (cfg : Config) :
    (New (some cfg)).isSome = true ↔
      (cfg.Key.length ≤ 32 ∧ 1 ≤ effSize cfg ∧ effSize cfg ≤ 32 ∧
        effInner cfg ≤ 32) := by
  simp only [New]
  cases hd : digestOf cfg with
  | none =>
      have h255 := (digestOf_eq_none cfg).1 hd
      simp only [Option.isSome_none, Bool.false_eq_true, false_iff]
      intro hr
      exact absurd hr.1 (by omega)
  | some d0 =>
      obtain ⟨hbs, hdl, hkl, hil, _, _⟩ := digestOf_some hd
      rw [Reset_isSome d0, hdl, hkl, hil]
      tauto

/-- The block size, digest length and digest-length bounds of every
engine `New` hands out. -/
theorem New_fields {cfgO : Option Config} {d : digest} (h : New cfgO = some d) :
    d.blockSize = 64 ∧
    d.param.digest_length = (match cfgO with | none => 32 | some c => effSize c) ∧
    1 ≤ d.param.digest_length ∧ d.param.digest_length ≤ 32 := by
  cases cfgO with
  | none =>
      have hf := Reset_frame (show baseDigest.Reset = some d from h)
      have h32 : d.param.digest_length = 32 := hf.1.symm ▸ rfl
      exact ⟨hf.2.1.trans rfl, hf.1.symm ▸ rfl, by omega, by omega⟩
  | some c =>
      simp only [New] at h
      cases hd : digestOf c with
      | none => rw [hd] at h; exact absurd h (by simp)
      | some d0 =>
          rw [hd] at h
          have h' : d0.Reset = some d := h
          have hf := Reset_frame h'
          obtain ⟨hbs, hdl, hkl, hil, _, _⟩ := digestOf_some hd
          have hv := (Reset_isSome d0).1 (by rw [h']; rfl)
          refine ⟨hf.2.1.trans hbs, ?_, ?_, ?_⟩ <;> rw [hf.1, hdl] <;>
            first
            | rfl
            | (rw [← hdl]; omega)

/-- Engines `New` hands out carry the truncating salt and
personalization copies in their parameter block. -/
theorem New_salt_personal {cfg : Config} {d : digest} (h : New (some cfg) = some d) :
    d.param.salt = copyFixed 8 cfg.Salt ∧
      d.param.personal = copyFixed 8 cfg.Personal := by
  simp only [New] at h
  cases hd : digestOf cfg with
  | none => rw [hd] at h; exact absurd h (by simp)
  | some d0 =>
      rw [hd] at h
      obtain ⟨_, _, _, _, hs, hp⟩ := digestOf_some hd
      have hf := Reset_frame h
      rw [hf.1]
      exact ⟨hs, hp⟩

/-- The compression function always returns an 8-word chaining value. -/
theorem compress_length (h : List Nat) (t f0 f1 : Nat) (b : List Byte) :
    (blake2s_compress h t f0 f1 b).length = 8 := by
  simp [blake2s_compress]

/-- Little-endian serialization yields 4 bytes per word. -/
theorem bytesOfWords_length (ws : List Nat) :
    (bytesOfWords ws).length = 4 * ws.length := by
  induction ws with
  | nil => rfl
  | cons w ws ih =>
      simp only [bytesOfWords, List.map_cons, List.flatten_cons, List.length_append,
        List.length_cons, List.length_nil, List.length_map] at ih ⊢
      omega

/-- Finalization returns exactly `outlen` bytes for `outlen ≤ 32`. -/
theorem final_length (s : blake2s_state) (outlen : Nat) (hl : outlen ≤ 32) :
    (blake2s_final s outlen).length = outlen := by
  unfold blake2s_final
  rw [List.length_take, bytesOfWords_length, compress_length]
  omega

/-- C1: `Sum` is non-destructive.  For every engine and every sequence of
prior `Write` calls, `Sum` returns the engine unchanged (chaining value,
counter and buffer included), a second `Sum` without an intervening
`Write` returns the same bytes, and `Sum` followed by a further `Write`
and another `Sum` yields the digest of the full concatenated stream. -/
theorem sum_nondestructive (d : digest) (ws : List (List Byte)) (m p : List Byte) :
    ((writeAll d ws).Sum p).2 = writeAll d ws ∧
    ((((writeAll d ws).Sum p).2).Sum p).1 = ((writeAll d ws).Sum p).1 ∧
    (((((writeAll d ws).Sum p).2).Write m).2.Sum p).1
      = (((d.Write (ws.flatten ++ m)).2).Sum p).1 := by
  refine ⟨rfl, rfl, ?_⟩
  have h1 : ((writeAll d ws).Sum p).2 = writeAll d ws := rfl
  rw [h1, writeAll_eq_write_flatten, Write_Write]

/-- C2: streaming equivalence.  Writing any chunking of `m` — at
arbitrary offsets, empty chunks allowed — and summing gives the same
digest as writing `m` in one call on the same starting engine. -/
theorem streaming_equivalence (d : digest) (m : List Byte) (cs : List (List Byte))
    (hcs : cs.flatten = m) (p : List Byte) :
    ((writeAll d cs).Sum p).1 = (((d.Write m).2).Sum p).1 := by
  rw [writeAll_eq_write_flatten, hcs]

/-- Witness for C2 at a concrete non-block-aligned chunking with an
empty chunk. -/
theorem streaming_equivalence_witness :
    ([[1, 2], [], [3]] : List (List Byte)).flatten = [1, 2, 3] ∧
      ((writeAll baseDigest [[1, 2], [], [3]]).Sum []).1
        = ((baseDigest.Write [1, 2, 3]).2.Sum []).1 :=
  ⟨by decide, streaming_equivalence baseDigest [1, 2, 3] [[1, 2], [], [3]] (by decide) []⟩

/-- C3: `Write` never fails: it always returns the pair
`(len(buf), nil)`, accepting the whole input. -/
theorem write_never_fails (d : digest) (buf : List Byte) :
    (d.Write buf).1 = (buf.length, none) := rfl

/-- C4: a key longer than 32 bytes makes construction fail: `New` either
panics in the Go wrapper (length above 255) or in the `Reset` call when
the C initialization refuses the parameter block; no engine is
returned. -/
theorem oversized_key_rejected (cfg : Config) (h : 32 < cfg.Key.length) :
    New (some cfg) = none := by
  cases hn : New (some cfg) with
  | none => rfl
  | some d =>
      have hr := (New_some_isSome cfg).1 (by rw [hn]; rfl)
      exact absurd hr.1 (by omega)

/-- Witness for C4 at a 33-byte key. -/
theorem oversized_key_rejected_witness :
    32 < (List.replicate 33 0 : List Byte).length ∧
      New (some { Size := 0, Key := List.replicate 33 0, Salt := [],
                  Personal := [], Tree := none }) = none :=
  ⟨by decide, oversized_key_rejected _ (by decide)⟩

/-- Counterexample to C5: a config with a 9-byte salt and a 9-byte
personalization is not refused — `New` constructs an engine. -/
theorem salt_not_rejected_counterexample :
    8 < oversizedSaltConfig.Salt.length ∧
      8 < oversizedSaltConfig.Personal.length ∧
      New (some oversizedSaltConfig) ≠ none := by decide

/-- C5 as amended: oversized salt and personalization are not a
configuration error.  Whether `New` succeeds does not depend on the salt
or personalization at all, and every constructed engine carries the salt
and personalization silently truncated to the first 8 bytes (shorter
inputs zero-padded). -/
theorem salt_truncated (cfg : Config) :
    (New (some cfg)).isSome
        = (New (some { cfg with Salt := [], Personal := [] })).isSome ∧
      ∀ d : digest, New (some cfg) = some d →
        d.param.salt = copyFixed 8 cfg.Salt ∧
          d.param.personal = copyFixed 8 cfg.Personal := by
  constructor
  · have hiff : (New (some cfg)).isSome = true ↔
        (New (some { cfg with Salt := [], Personal := [] })).isSome = true := by
      rw [New_some_isSome, New_some_isSome]
      exact Iff.rfl
    cases hb1 : (New (some cfg)).isSome <;>
      cases hb2 : (New (some { cfg with Salt := [], Personal := [] })).isSome <;>
        simp_all
  · intro d hd
    exact New_salt_personal hd

/-- Witness for C5 as amended, at the 9-byte salt/personalization
config. -/
theorem salt_truncated_witness :
    ((New (some oversizedSaltConfig)).isSome
        = (New (some { oversizedSaltConfig with Salt := [], Personal := [] })).isSome) ∧
      ∃ d, New (some oversizedSaltConfig) = some d ∧
        d.param.salt = copyFixed 8 oversizedSaltConfig.Salt ∧
        d.param.personal = copyFixed 8 oversizedSaltConfig.Personal := by
  refine ⟨(salt_truncated oversizedSaltConfig).1, ?_⟩
  cases hN : New (some oversizedSaltConfig) with
  | none => exact absurd hN (by decide)
  | some d => exact ⟨d, rfl, (salt_truncated oversizedSaltConfig).2 d hN⟩

/-- C6: a digest size outside [1,32] (other than 0, which selects the
default) makes `New` fail at construction time: no engine exists, so no
`Write` is ever possible on it. -/
theorem size_validation (cfg : Config) (h1 : cfg.Size ≠ 0)
    (h2 : ¬(1 ≤ cfg.Size ∧ cfg.Size ≤ 32)) :
    New (some cfg) = none := by
  cases hn : New (some cfg) with
  | none => rfl
  | some d =>
      have hr := (New_some_isSome cfg).1 (by rw [hn]; rfl)
      have he : effSize cfg = cfg.Size := by simp [effSize, h1]
      rw [he] at hr
      exact absurd ⟨hr.2.1, hr.2.2.1⟩ h2

/-- Witness for C6 at digest size 64. -/
theorem size_validation_witness :
    ((64 : Nat) ≠ 0 ∧ ¬(1 ≤ (64 : Nat) ∧ (64 : Nat) ≤ 32)) ∧
      New (some { Size := 64, Key := [], Salt := [], Personal := [],
                  Tree := none }) = none :=
  ⟨by decide, size_validation _ (by decide) (by decide)⟩

/-- C7: digest-length control.  Every constructed engine reports the
configured digest length (32 for a nil config or a zero `Size` field),
and `Sum(p)` returns `p` followed by exactly that many digest bytes. -/
theorem digest_length_control (cfgO : Option Config) (d : digest) (h : New cfgO = some d) :
    d.Size = (match cfgO with
              | none => 32
              | some c => if c.Size = 0 then 32 else c.Size) ∧
      ∀ p : List Byte, ((d.Sum p).1).length = p.length + d.Size := by
  obtain ⟨hbs, hdl, hlo, hhi⟩ := New_fields h
  constructor
  · rw [show d.Size = d.param.digest_length from rfl, hdl]
    cases cfgO <;> simp [effSize]
  · intro p
    show (p ++ blake2s_final d.state d.Size).length = p.length + d.Size
    simp only [digest.Size]
    rw [List.length_append, final_length _ _ hhi]

/-- Witness for C7 on the default engine. -/
theorem digest_length_control_witness :
    ∃ d, New none = some d ∧ d.Size = 32 ∧
      ((d.Sum [0]).1).length = 1 + d.Size := by
  cases hN : New none with
  | none => exact absurd hN (by decide)
  | some d =>
      refine ⟨d, rfl, ?_, ?_⟩
      · exact (digest_length_control none d hN).1
      · exact (digest_length_control none d hN).2 [0]

/-- C8: `BlockSize()` returns 64 for every constructed engine, whatever
the configuration. -/
theorem block_size_constant (cfgO : Option Config) (d : digest) (h : New cfgO = some d) :
    d.BlockSize = 64 :=
  (New_fields h).1

/-- Witness for C8 on a config exercising every field, tree mode
included. -/
theorem block_size_constant_witness :
    ∃ d, New (some fullConfig) = some d ∧ d.BlockSize = 64 := by
  cases hN : New (some fullConfig) with
  | none => exact absurd hN (by decide)
  | some d => exact ⟨d, rfl, block_size_constant _ d hN⟩

/-- C9: reset equivalence.  After any writes, `Reset` succeeds and
returns the engine to its freshly-constructed state, so subsequent
writes digest exactly as on the fresh engine (configuration and
last-node flag included, since `Reset` re-derives the state from the
unchanged parameter block and flag). -/
theorem reset_equivalence (cfgO : Option Config) (d : digest) (h : New cfgO = some d)
    (a b p : List Byte) :
    ∃ d2, ((d.Write a).2).Reset = some d2 ∧
      ((d2.Write b).2.Sum p).1 = ((d.Write b).2.Sum p).1 := by
  refine ⟨d, ?_, rfl⟩
  rw [Reset_Write]
  exact New_Reset h

/-- Witness for C9 on the default engine. -/
theorem reset_equivalence_witness :
    ∃ d, New none = some d ∧
      ∃ d2, ((d.Write [1]).2).Reset = some d2 ∧
        ((d2.Write [2]).2.Sum []).1 = ((d.Write [2]).2.Sum []).1 := by
  cases hN : New none with
  | none => exact absurd hN (by decide)
  | some d => exact ⟨d, rfl, reset_equivalence none d hN [1] [2] []⟩

/-- Counterexample to C10: the 33-byte key is non-empty, yet `New256`
does not return an engine (the C key initialization refuses it and the
wrapper panics). -/
theorem new256_long_key_counterexample :
    (List.replicate 33 0 : List Byte) ≠ [] ∧
      New256 (List.replicate 33 0) = none := by decide

/-- C10 as amended: `New256` with a nil or empty key is not safe (it
panics before initialization, returning no engine), and for every
non-empty key of length at most 32 — not every non-empty key —
`New256` returns an engine whose `Size()` is 32; keys longer than 32
bytes also fail at construction. -/
theorem new256_keyed (key : List Byte) :
    New256 [] = none ∧
      (key ≠ [] → key.length ≤ 32 → ∃ d, New256 key = some d ∧ d.Size = 32) ∧
      (32 < key.length → New256 key = none) := by
  refine ⟨by decide, ?_, ?_⟩
  · intro hne hle
    cases hN : New none with
    | none => exact absurd hN (by decide)
    | some d =>
        have hk0 : key.length ≠ 0 := by
          cases key with
          | nil => exact absurd rfl hne
          | cons c cs => simp
        have hik : (blake2s_init_key 32 key).isSome := by
          unfold blake2s_init_key
          rw [if_neg (by push_neg; exact ⟨hk0, by omega⟩)]
          unfold blake2s_init_param
          rw [if_pos ⟨show (1 : Nat) ≤ 32 by decide, show (32 : Nat) ≤ 32 by decide,
            hle, show (0 : Nat) ≤ 32 by decide⟩]
          rfl
        obtain ⟨s, hs⟩ := Option.isSome_iff_exists.1 hik
        refine ⟨{ d with state := s }, ?_, ?_⟩
        · simp only [New256, hN]
          rw [if_neg hk0, hs]
        · exact (New_fields (show New none = some d from hN)).2.1
  · intro h32
    cases hN : New none with
    | none => exact absurd hN (by decide)
    | some d =>
        simp only [New256, hN]
        rw [if_neg (by omega : ¬key.length = 0)]
        unfold blake2s_init_key
        rw [if_pos (Or.inr h32)]

/-- Witness for C10 as amended: empty key fails, a 1-byte key yields a
32-byte engine, a 33-byte key fails. -/
theorem new256_keyed_witness :
    New256 [] = none ∧
      (∃ d, New256 [7] = some d ∧ d.Size = 32) ∧
      New256 (List.replicate 33 9) = none :=
  ⟨(new256_keyed [7]).1,
   (new256_keyed [7]).2.1 (by decide) (by decide),
   (new256_keyed (List.replicate 33 9)).2.2 (by decide)⟩

end Blake2s
